import Mathlib

/-!
Verification of the sendblue-ts client's generic core: the recursive
key-casing transform (`toCamelCase`, `keysToCamelCase` from
src/utils/case-transformations.ts) and the request/error pipeline
(`Sendblue.api` from src/index.ts, `SendblueError`/`CustomError` from
src/error.ts and src/utils/custom-error.ts).

JavaScript values are shallowly embedded: JSON-compatible values become the
inductive type `Json`; a plain object is its field list in the object's
iteration order (JS object keys are unique, and `Object.keys` enumeration
order is both how the source reads the input and how assignments build the
output); machine numbers are modelled as `Int` (no claim depends on the
numeric representation); the `fetch` transport is abstracted as a function
from the built request to an HTTP response whose body is `Option Json`
(`none` models a body that `response.json()` fails to parse).
-/

/-- A separator character in the sense of the source regex `[-_]`
(src/utils/case-transformations.ts line 57). -/
def isSep (c : Char) : Bool := c = '-' || c = '_'

/-- An ASCII letter: what `[a-z]` with the `i` flag matches in the source
regex (legacy-mode case-insensitive matching canonicalizes only within
ASCII, so the class is exactly `[a-zA-Z]`). -/
def isAsciiLetter (c : Char) : Bool :=
  ('a' ≤ c && c ≤ 'z') || ('A' ≤ c && c ≤ 'Z')

/-- `value.replace(/([-_][a-z])/gi, $1 => $1.toUpperCase().replace("-", "").replace("_", ""))`
on the character list: a left-to-right non-overlapping scan; each match of a
separator followed by an ASCII letter is replaced by the uppercased letter
(the separator, unchanged by `toUpperCase`, is deleted by the two string
`replace` calls), and scanning resumes after the match. -/
def camelChars : List Char → List Char
  | [] => []
  | [c] => [c]
  | c :: d :: rest =>
    if isSep c && isAsciiLetter d then d.toUpper :: camelChars rest
    else c :: camelChars (d :: rest)

/-- `toCamelCase` from src/utils/case-transformations.ts lines 54-58. -/
def toCamelCase (value : String) : String := ⟨camelChars value.data⟩

/-- Spec-side rendering of the sentence "scan the string for every
occurrence of a hyphen or underscore immediately followed by a letter;
replace each such two-character sequence with the uppercased form of that
letter, removing the separator. All other characters are unchanged."
Occurrences cannot overlap (a letter is never a separator), so the sentence
determines the output character by character: a character is dropped when it
is a separator whose successor is a letter; it is uppercased when it is a
letter whose predecessor is a separator (`prevSep` carries that one bit of
left context); otherwise it is kept. -/
def camelSpecChars : Bool → List Char → List Char
  | _, [] => []
  | prevSep, c :: rest =>
    if isSep c && (rest.head?.elim false isAsciiLetter) then
      camelSpecChars true rest
    else if prevSep && isAsciiLetter c then
      c.toUpper :: camelSpecChars (isSep c) rest
    else
      c :: camelSpecChars (isSep c) rest

/-- Spec-side camel-casing of a string: no character has a predecessor at
the start, so the scan begins with `prevSep = false`. -/
def toCamelCaseSpec (value : String) : String := ⟨camelSpecChars false value.data⟩

/-- A JSON-compatible JavaScript value. `obj` lists the fields in the
object's iteration order with their (unique) keys. Numbers are modelled as
`Int`; no claim depends on the numeric representation. -/
inductive Json where
  | null
  | bool (b : Bool)
  | num (n : Int)
  | str (s : String)
  | arr (elements : List Json)
  | obj (fields : List (String × Json))

/-- Whether the object already has an entry for key `k`. -/
def hasKey (fields : List (String × Json)) (k : String) : Bool :=
  fields.any (fun p => p.1 == k)

/-- JavaScript property assignment `result[k] = v` on an object in
iteration order: if `k` is already present its value is updated in place
(the key keeps its original position), otherwise the entry is appended. -/
def setKey (fields : List (String × Json)) (k : String) (v : Json) :
    List (String × Json) :=
  if hasKey fields k then
    fields.map (fun p => if p.1 == k then (k, v) else p)
  else
    fields ++ [(k, v)]

/-- JavaScript property read `fields[k]` on an object: the value of the
entry with key `k`, if any. -/
def lookupKey : List (String × Json) → String → Option Json
  | [], _ => none
  | (k, v) :: rest, key => if k == key then some v else lookupKey rest key

mutual

/-- `keysToCamelCase` from src/utils/case-transformations.ts lines 21-49:
a plain object is rebuilt by iterating its keys in order and assigning
`result[toCamelCase(key)] = keysToCamelCase(value[key])` into a fresh
object; an array is mapped element-wise; anything else is returned as is. -/
def keysToCamelCase : Json → Json
  | .null => .null
  | .bool b => .bool b
  | .num n => .num n
  | .str s => .str s
  | .arr elements => .arr (keysToCamelCaseList elements)
  | .obj fields => .obj (keysToCamelCaseFields fields [])

/-- The `Object.keys(value).forEach` loop of `keysToCamelCase`, with the
`result` object accumulated in `acc`. -/
def keysToCamelCaseFields :
    List (String × Json) → List (String × Json) → List (String × Json)
  | [], acc => acc
  | (k, v) :: rest, acc =>
    keysToCamelCaseFields rest (setKey acc (toCamelCase k) (keysToCamelCase v))

/-- The `value.map(element => keysToCamelCase(element))` branch. -/
def keysToCamelCaseList : List Json → List Json
  | [] => []
  | v :: rest => keysToCamelCase v :: keysToCamelCaseList rest

end

/-- `Sendblue.sendblueBaseUrl` from src/index.ts line 193. -/
def sendblueBaseUrl : String := "https://api.sendblue.co"

/-- JavaScript truthiness of a JSON-compatible value, as tested by
`payload ? ... : null` in src/index.ts line 209: `null`, `false`, zero and
the empty string are falsy; every object and array (even empty) is truthy.
(`NaN` and `-0`, also falsy, have no distinct image in the `Int` model.) -/
def truthy : Json → Bool
  | .null => false
  | .bool b => b
  | .num n => n != 0
  | .str s => s != ""
  | .arr _ => true
  | .obj _ => true

/-- The character `c` as escaped inside a `JSON.stringify` string literal. -/
def escapeChar (c : Char) : String :=
  if c = '"' then "\\\""
  else if c = '\\' then "\\\\"
  else if c = '\n' then "\\n"
  else if c = '\t' then "\\t"
  else if c = '\r' then "\\r"
  else String.singleton c

/-- A string as serialized by `JSON.stringify`. -/
def serializeString (s : String) : String :=
  "\"" ++ String.join (s.data.map escapeChar) ++ "\""

mutual

/-- `JSON.stringify` on a JSON-compatible value (src/index.ts lines 209 and
227 serialize the outbound payload with it). Fields holding `undefined` or
functions, which `JSON.stringify` would drop, are not representable in
`Json`, so every field is emitted. -/
def serializeJson : Json → String
  | .null => "null"
  | .bool true => "true"
  | .bool false => "false"
  | .num n => toString n
  | .str s => serializeString s
  | .arr elements => "[" ++ serializeList elements ++ "]"
  | .obj fields => "\x7b" ++ serializeFields fields ++ "\x7d"

/-- Comma-separated serialization of array elements. -/
def serializeList : List Json → String
  | [] => ""
  | [v] => serializeJson v
  | v :: w :: rest => serializeJson v ++ "," ++ serializeList (w :: rest)

/-- Comma-separated serialization of object fields. -/
def serializeFields : List (String × Json) → String
  | [] => ""
  | [(k, v)] => serializeString k ++ ":" ++ serializeJson v
  | (k, v) :: q :: rest =>
    serializeString k ++ ":" ++ serializeJson v ++ "," ++ serializeFields (q :: rest)

end

/-- The outbound HTTP request as assembled by the `fetch` call in
src/index.ts lines 207-215. -/
structure Request where
  url : String
  method : String
  body : Option String
  headers : List (String × String)

/-- Request construction from src/index.ts lines 207-215: the URL is the
fixed base origin concatenated with the pathname verbatim, the method is
uppercased, the body is `JSON.stringify(payload)` when the payload is
provided and truthy (`payload ? JSON.stringify(payload) : null`) and absent
otherwise, and the headers carry the credential pair and the content type. -/
def buildRequest (publicKey secretKey method pathname : String)
    (payload : Option Json) : Request :=
  { url := sendblueBaseUrl ++ pathname
    method := method.toUpper
    body := match payload with
      | some p => if truthy p then some (serializeJson p) else none
      | none => none
    headers := [("sb-api-key-id", publicKey),
                ("sb-api-secret-key", secretKey),
                ("Content-Type", "application/json")] }

/-- The inbound HTTP response, abstracting the `fetch` `Response`:
`status` is the numeric status code and `jsonBody` is the outcome of
`await response.json()` (`none` when the body is not valid JSON and the
promise rejects). -/
structure HttpResponse where
  status : Nat
  jsonBody : Option Json

/-- `Response.ok` per the fetch specification: the status is in the
inclusive success range 200-299. -/
def responseOk (status : Nat) : Bool := 200 ≤ status && status ≤ 299

/-- The `cause` object built at src/index.ts line 227:
`request` is `JSON.stringify(payload)` (absent when no payload was given,
as `JSON.stringify(undefined)` is `undefined`), `code` is the response
status and `message` is the `message` property read off the normalized
response body. -/
structure ErrorCause where
  request : Option String
  code : Nat
  message : Option Json

/-- `SendblueError` from src/error.ts, through `CustomError` from
src/utils/custom-error.ts: a name (always `"API_REQUEST_FAILURE"`), a
message and a cause. -/
structure SendblueError where
  name : String
  message : String
  cause : ErrorCause

/-- JavaScript property read `v.message` on a non-null value: the field of
an object, `undefined` (here `none`) on arrays and scalars. Reading
`.message` off JS `null` throws a `TypeError` instead; `api` models that
path separately before this function is consulted. -/
def getMessageField : Json → Option Json
  | .obj fields => lookupKey fields "message"
  | _ => none

/-- The error message template of src/index.ts line 226. -/
def apiErrorMessage (pathname : String) : String :=
  "Error fetching data from Sendblue on route \"" ++ pathname ++ "\""

/-- The possible outcomes of one `api` call. `parseFailure` is the
rejection of `await response.json()` on a non-JSON body; `typeErrorFailure`
is the `TypeError` thrown while evaluating the `cause` object literal when
the normalized body is JS `null` (reading `.message` off `null` throws
before `new SendblueError` runs). -/
inductive ApiResult where
  | success (body : Json)
  | apiFailure (e : SendblueError)
  | parseFailure
  | typeErrorFailure

/-- Whether an `api` outcome is the structured `SendblueError` rejection. -/
def ApiResult.isApiFailure : ApiResult → Bool
  | .apiFailure _ => true
  | _ => false

/-- `Sendblue.api` from src/index.ts lines 204-233. The network is
abstracted by `transport`, mapping the built request to the response.
The body is parsed and normalized before the status check; on a non-ok
status the structured error is built (unless the normalized body is JS
`null`, in which case the `.message` read in the `cause` literal throws a
`TypeError` first); on an ok status the normalized body is returned. -/
def api (publicKey secretKey method pathname : String) (payload : Option Json)
    (transport : Request → HttpResponse) : ApiResult :=
  let response := transport (buildRequest publicKey secretKey method pathname payload)
  match response.jsonBody with
  | none => .parseFailure
  | some parsed =>
    let responseBody := keysToCamelCase parsed
    if responseOk response.status then .success responseBody
    else match responseBody with
      | .null => .typeErrorFailure
      | body =>
        .apiFailure
          { name := "API_REQUEST_FAILURE"
            message := apiErrorMessage pathname
            cause := { request := payload.map serializeJson
                       code := response.status
                       message := getMessageField body } }

mutual

/-- Structural isomorphism in the sense of the spec's invariant: the two
values have the same constructor tree — equal scalars, arrays of equal
length compared element-wise in order, objects with equally many fields
compared value-wise in order — and only the strings naming object fields
may differ. -/
def sameShape : Json → Json → Bool
  | .null, .null => true
  | .bool a, .bool b => a == b
  | .num a, .num b => a == b
  | .str a, .str b => a == b
  | .arr xs, .arr ys => sameShapeList xs ys
  | .obj fs, .obj gs => sameShapeFields fs gs
  | _, _ => false

/-- Field lists of equal length whose values are pairwise `sameShape`. -/
def sameShapeFields : List (String × Json) → List (String × Json) → Bool
  | [], [] => true
  | (_, v) :: fs, (_, w) :: gs => sameShape v w && sameShapeFields fs gs
  | _, _ => false

/-- Element lists of equal length, pairwise `sameShape`. -/
def sameShapeList : List Json → List Json → Bool
  | [], [] => true
  | v :: xs, w :: ys => sameShape v w && sameShapeList xs ys
  | _, _ => false

end

/-- No two adjacent separator characters anywhere in the list. -/
def noAdjSep : List Char → Bool
  | [] => true
  | [_] => true
  | c :: d :: rest => !(isSep c && isSep d) && noAdjSep (d :: rest)

/-- No position holds a separator immediately followed by an ASCII letter:
such a list is left unchanged by `camelChars`. -/
def noSepLetter : List Char → Bool
  | [] => true
  | [_] => true
  | c :: d :: rest => !(isSep c && isAsciiLetter d) && noSepLetter (d :: rest)

mutual

/-- Every object key, at every nesting level, is free of adjacent
separator pairs (the hypothesis under which one `toCamelCase` pass is
enough and re-normalization changes nothing). -/
def keysNoAdjSep : Json → Bool
  | .null => true
  | .bool _ => true
  | .num _ => true
  | .str _ => true
  | .arr elements => keysNoAdjSepList elements
  | .obj fields => keysNoAdjSepFields fields

/-- `keysNoAdjSep` over an object's field list. -/
def keysNoAdjSepFields : List (String × Json) → Bool
  | [] => true
  | (k, v) :: rest => noAdjSep k.data && keysNoAdjSep v && keysNoAdjSepFields rest

/-- `keysNoAdjSep` over an array's elements. -/
def keysNoAdjSepList : List Json → Bool
  | [] => true
  | v :: rest => keysNoAdjSep v && keysNoAdjSepList rest

end

mutual

/-- In every object, at every nesting level, the camelCased forms of the
keys are pairwise distinct (no key collision anywhere). -/
def noCollisions : Json → Bool
  | .null => true
  | .bool _ => true
  | .num _ => true
  | .str _ => true
  | .arr elements => noCollisionsList elements
  | .obj fields =>
    decide ((fields.map (fun p => toCamelCase p.1)).Nodup) && noCollisionsFields fields

/-- `noCollisions` over an object's field values. -/
def noCollisionsFields : List (String × Json) → Bool
  | [] => true
  | (_, v) :: rest => noCollisions v && noCollisionsFields rest

/-- `noCollisions` over an array's elements. -/
def noCollisionsList : List Json → Bool
  | [] => true
  | v :: rest => noCollisions v && noCollisionsList rest

end

mutual

/-- Nesting depth of a value: scalars have depth 0, objects and arrays one
more than the deepest child. -/
def depth : Json → Nat
  | .null => 0
  | .bool _ => 0
  | .num _ => 0
  | .str _ => 0
  | .arr elements => 1 + depthList elements
  | .obj fields => 1 + depthFields fields

/-- Maximum depth of an object's field values. -/
def depthFields : List (String × Json) → Nat
  | [] => 0
  | (_, v) :: rest => max (depth v) (depthFields rest)

/-- Maximum depth of an array's elements. -/
def depthList : List Json → Nat
  | [] => 0
  | v :: rest => max (depth v) (depthList rest)

end

mutual

/-- A depth-limited variant of `keysToCamelCase`: one unit of fuel is spent
per nesting level, and the walk reports `none` when the fuel is exhausted.
Used to state that the source's unbounded recursion succeeds at every
depth. -/
def keysToCamelCaseFuel : Nat → Json → Option Json
  | 0, _ => none
  | _ + 1, .null => some .null
  | _ + 1, .bool b => some (.bool b)
  | _ + 1, .num n => some (.num n)
  | _ + 1, .str s => some (.str s)
  | fuel + 1, .arr elements => (keysToCamelCaseFuelList fuel elements).map .arr
  | fuel + 1, .obj fields => (keysToCamelCaseFuelFields fuel fields []).map .obj

/-- Depth-limited field loop. -/
def keysToCamelCaseFuelFields :
    Nat → List (String × Json) → List (String × Json) →
    Option (List (String × Json))
  | _, [], acc => some acc
  | fuel, (k, v) :: rest, acc =>
    match keysToCamelCaseFuel fuel v with
    | none => none
    | some w => keysToCamelCaseFuelFields fuel rest (setKey acc (toCamelCase k) w)

/-- Depth-limited element map. -/
def keysToCamelCaseFuelList : Nat → List Json → Option (List Json)
  | _, [] => some []
  | fuel, v :: rest =>
    match keysToCamelCaseFuel fuel v with
    | none => none
    | some w =>
      match keysToCamelCaseFuelList fuel rest with
      | none => none
      | some ws => some (w :: ws)

end

/-- The last entry of `fields`, in iteration order, whose camelCased key
equals `key` (the entry whose value wins under JavaScript's
assignment-overwrites semantics when keys collide). -/
def lastMatch : List (String × Json) → String → Option (String × Json)
  | [], _ => none
  | p :: rest, key =>
    match lastMatch rest key with
    | some q => some q
    | none => if toCamelCase p.1 == key then some p else none

theorem sep_not_letter {c : Char} (h : isSep c = true) : isAsciiLetter c = false := by
  simp [isSep] at h
  rcases h with h | h <;> subst h <;> decide

theorem letter_not_sep {c : Char} (h : isAsciiLetter c = true) : isSep c = false := by
  by_contra hcon
  have := sep_not_letter (c := c) (by simpa using hcon)
  simp [this] at h

theorem camelSpecChars_of_not_letter (b1 b2 : Bool) (l : List Char)
    (h : l.head?.elim True (fun c => isAsciiLetter c = false)) :
    camelSpecChars b1 l = camelSpecChars b2 l := by
  cases l with
  | nil => rfl
  | cons c rest =>
    simp [Option.elim] at h
    simp [camelSpecChars, h]

theorem camelChars_eq_spec (l : List Char) : camelChars l = camelSpecChars false l := by
  induction l using camelChars.induct with
  | case1 => rfl
  | case2 c =>
    simp [camelChars, camelSpecChars]
  | case3 c d rest h ih =>
    simp only [Bool.and_eq_true] at h
    simp [camelChars, camelSpecChars, h.1, h.2, letter_not_sep h.2, ih]
  | case4 c d rest h ih =>
    by_cases hc : isSep c = true
    · have hd : isAsciiLetter d = false := by
        by_contra hcon
        exact h (by simp [hc] at hcon ⊢; exact hcon)
      simp only [camelChars, camelSpecChars, List.head?_cons, hd, hc, ih]
      simp [hd, camelSpecChars_of_not_letter true false (d :: rest)
        (by simp [Option.elim, hd])]
    · replace hc : isSep c = false := by simpa using hc
      simp only [camelChars, camelSpecChars, List.head?_cons, hc, ih]
      simp

/-- C1: for every input string, `toCamelCase` replaces each occurrence of a
hyphen or underscore immediately followed by a letter with the uppercased
form of that letter, removing the separator, and leaves every other
character unchanged, regardless of the letter's original case
(`toCamelCaseSpec` is that sentence rendered directly); in particular the
six documented examples hold. -/
theorem toCamelCase_replaces_separator_letter_pairs :
    (∀ s : String, toCamelCase s = toCamelCaseSpec s) ∧
    toCamelCase "media_url" = "mediaUrl" ∧
    toCamelCase "error_code" = "errorCode" ∧
    toCamelCase "already_camel" = "alreadyCamel" ∧
    toCamelCase "no-sep" = "noSep" ∧
    toCamelCase "" = "" ∧
    toCamelCase "trailing_" = "trailing_" :=
  ⟨fun s => congrArg String.mk (camelChars_eq_spec s.data),
   by decide, by decide, by decide, by decide, by decide, by decide⟩

theorem camelChars_length_le (l : List Char) :
    (camelChars l).length ≤ l.length := by
  induction l using camelChars.induct with
  | case1 => simp [camelChars]
  | case2 c => simp [camelChars]
  | case3 c d rest h ih =>
    rw [camelChars, if_pos h]
    simp only [List.length_cons]
    omega
  | case4 c d rest h ih =>
    rw [camelChars, if_neg h]
    simp only [List.length_cons] at ih ⊢
    omega

/-- C10: camel-casing never lengthens a string — each replacement shrinks a
two-character separator-letter pair to one character and nothing is
inserted. -/
theorem toCamelCase_length_le (s : String) :
    (toCamelCase s).length ≤ s.length :=
  camelChars_length_le s.data

theorem char_toNat_ofNat (n : Nat) (h : n.isValidChar) : (Char.ofNat n).toNat = n := by
  simp only [Char.ofNat, dif_pos h, Char.ofNatAux, Char.toNat, UInt32.toNat]
  simp

theorem toUpper_not_sep {d : Char} (h : isAsciiLetter d = true) :
    isSep d.toUpper = false := by
  by_cases hl : d.toNat ≥ 97 ∧ d.toNat ≤ 122
  · have hup : d.toUpper = Char.ofNat (d.toNat - 32) := by
      simp [Char.toUpper, hl]
    have hv : (Char.ofNat (d.toNat - 32)).toNat = d.toNat - 32 :=
      char_toNat_ofNat _ (Or.inl (by omega))
    rw [hup]
    have h45 : ¬(Char.ofNat (d.toNat - 32) = '-') := by
      intro he
      have : (Char.ofNat (d.toNat - 32)).toNat = 45 := by rw [he]; decide
      omega
    have h95 : ¬(Char.ofNat (d.toNat - 32) = '_') := by
      intro he
      have : (Char.ofNat (d.toNat - 32)).toNat = 95 := by rw [he]; decide
      omega
    simp [isSep, h45, h95]
  · have hup : d.toUpper = d := by
      simp [Char.toUpper, hl]
    rw [hup]
    exact letter_not_sep h

theorem noAdjSep_tail {x : Char} {m : List Char} (h : noAdjSep (x :: m) = true) :
    noAdjSep m = true := by
  cases m with
  | nil => rfl
  | cons y ys => simp [noAdjSep] at h ⊢; exact h.2

theorem noSepLetter_cons_of_not_sep {x : Char} {m : List Char}
    (hx : isSep x = false) (hm : noSepLetter m = true) :
    noSepLetter (x :: m) = true := by
  cases m with
  | nil => rfl
  | cons y ys =>
    simp only [noSepLetter, hx, Bool.false_and, Bool.not_false, Bool.true_and]
    exact hm

theorem camelChars_cons_not_sep (d : Char) (rest : List Char)
    (hd : isSep d = false) :
    camelChars (d :: rest) = d :: camelChars rest := by
  cases rest with
  | nil => rfl
  | cons e es => rw [camelChars, if_neg (by simp [hd])]

theorem noSepLetter_camelChars_of_noAdjSep (l : List Char)
    (h : noAdjSep l = true) :
    noSepLetter (camelChars l) = true := by
  induction l using camelChars.induct with
  | case1 => rfl
  | case2 c => rfl
  | case3 c d rest hm ih =>
    rw [camelChars, if_pos hm]
    simp only [Bool.and_eq_true] at hm
    have hrest : noAdjSep rest = true := noAdjSep_tail (noAdjSep_tail h)
    exact noSepLetter_cons_of_not_sep (toUpper_not_sep hm.2) (ih hrest)
  | case4 c d rest hm ih =>
    rw [camelChars, if_neg hm]
    have hdtail : noAdjSep (d :: rest) = true := noAdjSep_tail h
    by_cases hc : isSep c = true
    · have hd : isSep d = false := by
        simp [noAdjSep, hc] at h
        simpa using h.1
      have hdl : isAsciiLetter d = false := by
        by_contra hcon
        exact hm (by simp [hc]; simpa using hcon)
      rw [camelChars_cons_not_sep d rest hd]
      have ih2 := ih hdtail
      rw [camelChars_cons_not_sep d rest hd] at ih2
      simp only [noSepLetter, hdl, Bool.and_false, Bool.not_false, Bool.true_and]
      cases hcc : camelChars rest with
      | nil => rfl
      | cons z zs =>
        rw [hcc] at ih2
        simp only [noSepLetter] at ih2 ⊢
        exact ih2
    · exact noSepLetter_cons_of_not_sep (by simpa using hc) (ih hdtail)

theorem noSepLetter_camelChars (l : List Char) (h : noSepLetter l = true) :
    camelChars l = l := by
  induction l using camelChars.induct with
  | case1 => rfl
  | case2 c => rfl
  | case3 c d rest hm ih =>
    rw [noSepLetter, hm] at h
    simp at h
  | case4 c d rest hm ih =>
    simp only [noSepLetter, Bool.and_eq_true] at h
    rw [camelChars, if_neg hm, ih (by simpa using h.2)]

theorem camelChars_idem_of_noAdjSep (l : List Char) (h : noAdjSep l = true) :
    camelChars (camelChars l) = camelChars l :=
  noSepLetter_camelChars (camelChars l) (noSepLetter_camelChars_of_noAdjSep l h)

theorem toCamelCase_idem_of_noAdjSep (s : String) (h : noAdjSep s.data = true) :
    toCamelCase (toCamelCase s) = toCamelCase s :=
  congrArg String.mk (camelChars_idem_of_noAdjSep s.data h)

theorem hasKey_eq_false_iff {fields : List (String × Json)} {k : String} :
    hasKey fields k = false ↔ k ∉ fields.map Prod.fst := by
  induction fields with
  | nil => simp [hasKey]
  | cons p rest ih =>
    simp only [hasKey, List.any_cons, List.map_cons, List.mem_cons,
      Bool.or_eq_false_iff, beq_eq_false_iff_ne, ne_eq] at *
    constructor
    · rintro ⟨h1, h2⟩ (he | he)
      · exact h1 he.symm
      · exact ih.mp h2 he
    · intro h
      exact ⟨fun he => h (Or.inl he.symm), ih.mpr (fun he => h (Or.inr he))⟩

theorem setKey_of_not_hasKey {fields : List (String × Json)} {k : String} (v : Json)
    (h : hasKey fields k = false) : setKey fields k v = fields ++ [(k, v)] := by
  simp [setKey, h]

theorem keys_setKey_of_hasKey {fields : List (String × Json)} {k : String} (v : Json)
    (h : hasKey fields k = true) :
    (setKey fields k v).map Prod.fst = fields.map Prod.fst := by
  simp only [setKey, h, if_pos, List.map_map]
  apply List.map_congr_left
  intro p _
  by_cases hp : p.1 = k
  · simp [Function.comp_apply, hp]
  · simp [Function.comp_apply, hp]

theorem mem_setKey {fields : List (String × Json)} {k : String} {v : Json}
    {p : String × Json} (h : p ∈ setKey fields k v) : p ∈ fields ∨ p = (k, v) := by
  simp only [setKey] at h
  by_cases hk : hasKey fields k
  · rw [if_pos hk] at h
    obtain ⟨q, hq, he⟩ := List.mem_map.mp h
    by_cases hq1 : q.1 = k
    · right; rw [← he, if_pos (show (q.1 == k) = true by simp [hq1])]
    · left; rw [← he, if_neg (show ¬((q.1 == k) = true) by simp [hq1])]; exact hq
  · rw [if_neg hk] at h
    rcases List.mem_append.mp h with h | h
    · left; exact h
    · right; simpa using h

theorem nodup_keys_setKey {fields : List (String × Json)} {k : String} (v : Json)
    (h : (fields.map Prod.fst).Nodup) :
    ((setKey fields k v).map Prod.fst).Nodup := by
  by_cases hk : hasKey fields k
  · rw [keys_setKey_of_hasKey v hk]; exact h
  · rw [setKey_of_not_hasKey v (by simpa using hk)]
    simp only [List.map_append, List.map_cons, List.map_nil]
    rw [List.nodup_append]
    refine ⟨h, List.nodup_singleton k, ?_⟩
    intro x hx hk1
    simp only [List.mem_singleton] at hk1
    subst hk1
    exact (hasKey_eq_false_iff.mp (by simpa using hk)) hx

theorem lookupKey_eq_none_of_not_hasKey {fields : List (String × Json)} {k : String}
    (h : hasKey fields k = false) : lookupKey fields k = none := by
  induction fields with
  | nil => rfl
  | cons p rest ih =>
    obtain ⟨a, b⟩ := p
    simp only [hasKey, List.any_cons, Bool.or_eq_false_iff] at h
    rw [lookupKey, if_neg (by simp [h.1] : ¬((a == k) = true))]
    exact ih (by simpa [hasKey] using h.2)

theorem lookupKey_append (l1 l2 : List (String × Json)) (key : String) :
    lookupKey (l1 ++ l2) key =
      match lookupKey l1 key with
      | some v => some v
      | none => lookupKey l2 key := by
  induction l1 with
  | nil => simp [lookupKey]
  | cons p rest ih =>
    obtain ⟨a, b⟩ := p
    by_cases ha : (a == key) = true
    · simp [lookupKey, ha]
    · simp only [List.cons_append, lookupKey, if_neg ha]
      exact ih

theorem lookupKey_map_update_of_ne {fields : List (String × Json)} {k key : String}
    (v : Json) (hne : key ≠ k) :
    lookupKey (fields.map (fun p => if (p.1 == k) = true then (k, v) else p)) key =
      lookupKey fields key := by
  induction fields with
  | nil => rfl
  | cons p rest ih =>
    obtain ⟨a, b⟩ := p
    simp only [List.map_cons]
    by_cases ha : (a == k) = true
    · have hak : a = k := beq_iff_eq.mp ha
      rw [if_pos ha, lookupKey, lookupKey,
        if_neg (show ¬((k == key) = true) by simp [Ne.symm hne]),
        if_neg (show ¬((a == key) = true) by simp [hak, Ne.symm hne])]
      exact ih
    · rw [if_neg ha, lookupKey, lookupKey]
      by_cases hk2 : (a == key) = true
      · rw [if_pos hk2, if_pos hk2]
      · rw [if_neg hk2, if_neg hk2]
        exact ih

theorem lookupKey_map_update_self {fields : List (String × Json)} {k : String}
    (v : Json) (h : hasKey fields k = true) :
    lookupKey (fields.map (fun p => if (p.1 == k) = true then (k, v) else p)) k =
      some v := by
  induction fields with
  | nil => simp [hasKey] at h
  | cons p rest ih =>
    obtain ⟨a, b⟩ := p
    simp only [List.map_cons]
    by_cases ha : (a == k) = true
    · rw [if_pos ha, lookupKey, if_pos (show (k == k) = true by simp)]
    · rw [if_neg ha, lookupKey, if_neg ha]
      refine ih ?_
      simpa [hasKey, ha] using h

theorem lookupKey_setKey (fields : List (String × Json)) (k : String) (v : Json)
    (key : String) :
    lookupKey (setKey fields k v) key =
      if key = k then some v else lookupKey fields key := by
  by_cases hkey : key = k
  · subst hkey
    rw [if_pos rfl]
    by_cases hk : hasKey fields key
    · simp only [setKey, hk, if_pos]
      exact lookupKey_map_update_self v hk
    · rw [setKey_of_not_hasKey v (by simpa using hk), lookupKey_append,
        lookupKey_eq_none_of_not_hasKey (by simpa using hk)]
      simp [lookupKey]
  · rw [if_neg hkey]
    by_cases hk : hasKey fields k
    · simp only [setKey, hk, if_pos]
      exact lookupKey_map_update_of_ne v hkey
    · rw [setKey_of_not_hasKey v (by simpa using hk), lookupKey_append]
      have : lookupKey [(k, v)] key = none := by
        rw [lookupKey, if_neg (show ¬((k == key) = true) by simp [Ne.symm hkey])]
        rfl
      rw [this]
      cases lookupKey fields key <;> rfl

theorem nodup_keys_keysToCamelCaseFields
    (fields acc : List (String × Json))
    (h : (acc.map Prod.fst).Nodup) :
    ((keysToCamelCaseFields fields acc).map Prod.fst).Nodup := by
  induction fields generalizing acc with
  | nil => exact h
  | cons p rest ih =>
    obtain ⟨k, v⟩ := p
    exact ih _ (nodup_keys_setKey _ h)

theorem mem_keysToCamelCaseFields {fields acc : List (String × Json)}
    {p : String × Json} (h : p ∈ keysToCamelCaseFields fields acc) :
    p ∈ acc ∨ ∃ q ∈ fields, p = (toCamelCase q.1, keysToCamelCase q.2) := by
  induction fields generalizing acc with
  | nil => exact Or.inl h
  | cons q rest ih =>
    obtain ⟨k, v⟩ := q
    rcases ih h with hmem | ⟨q2, hq2, he⟩
    · rcases mem_setKey hmem with hmem | he
      · exact Or.inl hmem
      · exact Or.inr ⟨(k, v), List.mem_cons_self _ _, he⟩
    · exact Or.inr ⟨q2, List.mem_cons_of_mem _ hq2, he⟩

theorem keysToCamelCaseFields_eq_append
    (fields acc : List (String × Json))
    (h : (acc.map Prod.fst ++ fields.map (fun p => toCamelCase p.1)).Nodup) :
    keysToCamelCaseFields fields acc =
      acc ++ fields.map (fun p => (toCamelCase p.1, keysToCamelCase p.2)) := by
  induction fields generalizing acc with
  | nil => simp [keysToCamelCaseFields]
  | cons q rest ih =>
    obtain ⟨k, v⟩ := q
    rw [keysToCamelCaseFields]
    have hmid := List.nodup_middle.mp (by simpa using h)
    have hnot : toCamelCase k ∉ acc.map Prod.fst :=
      fun hmem => (List.nodup_cons.mp hmid).1 (List.mem_append_left _ hmem)
    rw [setKey_of_not_hasKey _ (hasKey_eq_false_iff.mpr hnot)]
    rw [ih (acc ++ [(toCamelCase k, keysToCamelCase v)]) (by
      simpa [List.append_assoc] using h)]
    simp [List.append_assoc]

theorem lookupKey_keysToCamelCaseFields
    (fields acc : List (String × Json)) (key : String) :
    lookupKey (keysToCamelCaseFields fields acc) key =
      match lastMatch fields key with
      | some q => some (keysToCamelCase q.2)
      | none => lookupKey acc key := by
  induction fields generalizing acc with
  | nil => rfl
  | cons p rest ih =>
    obtain ⟨k, v⟩ := p
    rw [keysToCamelCaseFields, ih, lastMatch]
    cases hrest : lastMatch rest key with
    | some q => rfl
    | none =>
      rw [lookupKey_setKey]
      by_cases hk : (toCamelCase (k, v).1 == key) = true
      · rw [if_pos hk, if_pos (beq_iff_eq.mp hk).symm]
      · rw [if_neg hk, if_neg (fun he => hk (beq_iff_eq.mpr he.symm))]

theorem length_keysToCamelCaseFields_lt
    (fields : List (String × Json))
    (hcoll : ¬ (fields.map (fun p => toCamelCase p.1)).Nodup) :
    (keysToCamelCaseFields fields []).length < fields.length := by
  have hnodup : ((keysToCamelCaseFields fields []).map Prod.fst).Nodup :=
    nodup_keys_keysToCamelCaseFields fields [] (by simp)
  have hsub : ∀ x ∈ (keysToCamelCaseFields fields []).map Prod.fst,
      x ∈ fields.map (fun p => toCamelCase p.1) := by
    intro x hx
    obtain ⟨p, hp, he⟩ := List.mem_map.mp hx
    rcases mem_keysToCamelCaseFields hp with h0 | ⟨q, hq, hpe⟩
    · simp at h0
    · subst hpe
      subst he
      exact List.mem_map.mpr ⟨q, hq, rfl⟩
  have h1 : ((keysToCamelCaseFields fields []).map Prod.fst).length ≤
      (fields.map (fun p => toCamelCase p.1)).dedup.length := by
    calc ((keysToCamelCaseFields fields []).map Prod.fst).length
        = ((keysToCamelCaseFields fields []).map Prod.fst).toFinset.card :=
          (List.toFinset_card_of_nodup hnodup).symm
      _ ≤ (fields.map (fun p => toCamelCase p.1)).toFinset.card :=
          Finset.card_le_card (fun x hx =>
            List.mem_toFinset.mpr (hsub x (List.mem_toFinset.mp hx)))
      _ = (fields.map (fun p => toCamelCase p.1)).dedup.length :=
          List.card_toFinset _
  have h2 : (fields.map (fun p => toCamelCase p.1)).dedup.length <
      (fields.map (fun p => toCamelCase p.1)).length := by
    rcases Nat.lt_or_ge (fields.map (fun p => toCamelCase p.1)).dedup.length
      (fields.map (fun p => toCamelCase p.1)).length with h | h
    · exact h
    · exfalso
      have hlen : (fields.map (fun p => toCamelCase p.1)).dedup.length =
          (fields.map (fun p => toCamelCase p.1)).length :=
        Nat.le_antisymm (List.dedup_sublist _).length_le h
      have heq := (List.dedup_sublist
        (fields.map (fun p => toCamelCase p.1))).eq_of_length hlen
      exact hcoll (heq ▸ List.nodup_dedup _)
  have h3 : ((keysToCamelCaseFields fields []).map Prod.fst).length =
      (keysToCamelCaseFields fields []).length := List.length_map _ _
  have h4 : (fields.map (fun p => toCamelCase p.1)).length = fields.length :=
    List.length_map _ _
  omega

theorem Json.strongInd (P : Json → Prop)
    (hnull : P .null) (hbool : ∀ b, P (.bool b)) (hnum : ∀ n, P (.num n))
    (hstr : ∀ s, P (.str s))
    (harr : ∀ elements, (∀ v ∈ elements, P v) → P (.arr elements))
    (hobj : ∀ fields, (∀ p ∈ fields, P p.2) → P (.obj fields)) :
    ∀ v, P v := by
  have key : ∀ n v, sizeOf v ≤ n → P v := by
    intro n
    induction n with
    | zero =>
      intro v hv
      cases v <;> simp at hv
    | succ n ih =>
      intro v hv
      cases v with
      | null => exact hnull
      | bool b => exact hbool b
      | num m => exact hnum m
      | str s => exact hstr s
      | arr elements =>
        refine harr elements (fun x hx => ih x ?_)
        have h1 := List.sizeOf_lt_of_mem hx
        simp only [Json.arr.sizeOf_spec] at hv
        omega
      | obj fields =>
        refine hobj fields (fun p hp => ih p.2 ?_)
        have h1 := List.sizeOf_lt_of_mem hp
        obtain ⟨a, b⟩ := p
        simp only [Json.obj.sizeOf_spec] at hv
        simp only [Prod.mk.sizeOf_spec] at h1
        simp only []
        omega
  exact fun v => key (sizeOf v) v (Nat.le_refl _)

theorem keysToCamelCaseList_eq_map (elements : List Json) :
    keysToCamelCaseList elements = elements.map keysToCamelCase := by
  induction elements with
  | nil => rfl
  | cons v rest ih => rw [keysToCamelCaseList, ih, List.map_cons]

theorem keysNoAdjSepFields_mem {fields : List (String × Json)}
    (h : keysNoAdjSepFields fields = true) :
    ∀ p ∈ fields, noAdjSep p.1.data = true ∧ keysNoAdjSep p.2 = true := by
  induction fields with
  | nil => intro p hp; simp at hp
  | cons q rest ih =>
    obtain ⟨k, v⟩ := q
    rw [keysNoAdjSepFields] at h
    simp only [Bool.and_eq_true] at h
    intro p hp
    rcases List.mem_cons.mp hp with he | hm
    · subst he; exact ⟨h.1.1, h.1.2⟩
    · exact ih h.2 p hm

theorem keysNoAdjSepList_mem {elements : List Json}
    (h : keysNoAdjSepList elements = true) :
    ∀ v ∈ elements, keysNoAdjSep v = true := by
  induction elements with
  | nil => intro v hv; simp at hv
  | cons w rest ih =>
    rw [keysNoAdjSepList] at h
    simp only [Bool.and_eq_true] at h
    intro v hv
    rcases List.mem_cons.mp hv with he | hm
    · subst he; exact h.1
    · exact ih h.2 v hm

theorem keysToCamelCaseFields_stable (G : List (String × Json))
    (hstable : ∀ p ∈ G, toCamelCase p.1 = p.1 ∧ keysToCamelCase p.2 = p.2)
    (hnodup : (G.map Prod.fst).Nodup) :
    keysToCamelCaseFields G [] = G := by
  have hkeys : G.map (fun p => toCamelCase p.1) = G.map Prod.fst :=
    List.map_congr_left (fun p hp => (hstable p hp).1)
  rw [keysToCamelCaseFields_eq_append G [] (by simpa [hkeys] using hnodup)]
  simp only [List.nil_append]
  calc G.map (fun p => (toCamelCase p.1, keysToCamelCase p.2))
      = G.map id := List.map_congr_left (fun p hp => by
        obtain ⟨h1, h2⟩ := hstable p hp
        rw [h1, h2]
        simp)
    _ = G := List.map_id G

/-- C2 amended: re-normalization is the identity on normalized output
provided no object key, at any nesting level, contains two adjacent
separator characters; without that proviso the claim fails (see the
counterexample): `toCamelCase` removes only the second separator of a
pair like `"a--b"`, and the surviving separator fuses with the following
letter on the second pass. -/
theorem keysToCamelCase_idem_of_keysNoAdjSep (v : Json)
    (h : keysNoAdjSep v = true) :
    keysToCamelCase (keysToCamelCase v) = keysToCamelCase v := by
  induction v using Json.strongInd with
  | hnull => rfl
  | hbool b => rfl
  | hnum n => rfl
  | hstr s => rfl
  | harr elements hmem =>
    rw [keysToCamelCase, keysToCamelCase]
    have hx := keysNoAdjSepList_mem (by simpa [keysNoAdjSep] using h)
    rw [keysToCamelCaseList_eq_map, keysToCamelCaseList_eq_map, List.map_map]
    exact congrArg Json.arr
      (List.map_congr_left (fun x hx2 => hmem x hx2 (hx x hx2)))
  | hobj fields hmem =>
    rw [keysToCamelCase, keysToCamelCase]
    have hf := keysNoAdjSepFields_mem (by simpa [keysNoAdjSep] using h)
    refine congrArg Json.obj (keysToCamelCaseFields_stable _ ?_ ?_)
    · intro p hp
      rcases mem_keysToCamelCaseFields hp with h0 | ⟨q, hq, he⟩
      · simp at h0
      · subst he
        exact ⟨toCamelCase_idem_of_noAdjSep q.1 (hf q hq).1,
          hmem q hq (hf q hq).2⟩
    · exact nodup_keys_keysToCamelCaseFields fields [] (by simp)

/-- C2 counterexample: re-normalization is not the identity on all values.
For `v = {"a--b": null}` the first pass rewrites the key to `"a-B"` (the
scan consumes `-b` and leaves the preceding hyphen) and the second pass
rewrites it further to `"aB"`, so `normalize(normalize(v)) ≠ normalize(v)`. -/
theorem keysToCamelCase_not_idempotent :
    keysToCamelCase (keysToCamelCase (Json.obj [("a--b", Json.null)])) ≠
      keysToCamelCase (Json.obj [("a--b", Json.null)]) := by
  show Json.obj [("aB", Json.null)] ≠ Json.obj [("a-B", Json.null)]
  simp

/-- Witness for C2: a nested value whose keys have no adjacent separators,
on which the amended idempotence theorem applies. -/
theorem keysToCamelCase_idem_of_keysNoAdjSep_witness :
    keysNoAdjSep (Json.obj [("media_url", Json.str "x"),
      ("error_detail", Json.arr [Json.obj [("from_number", Json.null)]])]) = true ∧
    keysToCamelCase (keysToCamelCase (Json.obj [("media_url", Json.str "x"),
      ("error_detail", Json.arr [Json.obj [("from_number", Json.null)]])])) =
      keysToCamelCase (Json.obj [("media_url", Json.str "x"),
        ("error_detail", Json.arr [Json.obj [("from_number", Json.null)]])]) :=
  ⟨by decide, keysToCamelCase_idem_of_keysNoAdjSep _ (by decide)⟩

/-- C4: the normalizer returns every scalar unchanged — strings (including
strings containing underscores, such as `"a_b"`), numbers, booleans and
null; the casing transform touches only object keys. -/
theorem keysToCamelCase_scalar_passthrough :
    (∀ s, keysToCamelCase (Json.str s) = Json.str s) ∧
    (∀ n, keysToCamelCase (Json.num n) = Json.num n) ∧
    (∀ b, keysToCamelCase (Json.bool b) = Json.bool b) ∧
    keysToCamelCase Json.null = Json.null ∧
    keysToCamelCase (Json.str "a_b") = Json.str "a_b" :=
  ⟨fun _ => rfl, fun _ => rfl, fun _ => rfl, rfl, rfl⟩

theorem noCollisionsFields_mem {fields : List (String × Json)}
    (h : noCollisionsFields fields = true) :
    ∀ p ∈ fields, noCollisions p.2 = true := by
  induction fields with
  | nil => intro p hp; simp at hp
  | cons q rest ih =>
    obtain ⟨k, v⟩ := q
    rw [noCollisionsFields] at h
    simp only [Bool.and_eq_true] at h
    intro p hp
    rcases List.mem_cons.mp hp with he | hm
    · subst he; exact h.1
    · exact ih h.2 p hm

theorem noCollisionsList_mem {elements : List Json}
    (h : noCollisionsList elements = true) :
    ∀ v ∈ elements, noCollisions v = true := by
  induction elements with
  | nil => intro v hv; simp at hv
  | cons w rest ih =>
    rw [noCollisionsList] at h
    simp only [Bool.and_eq_true] at h
    intro v hv
    rcases List.mem_cons.mp hv with he | hm
    · subst he; exact h.1
    · exact ih h.2 v hm

theorem sameShapeList_map {elements : List Json}
    (h : ∀ x ∈ elements, sameShape x (keysToCamelCase x) = true) :
    sameShapeList elements (elements.map keysToCamelCase) = true := by
  induction elements with
  | nil => rfl
  | cons v rest ih =>
    rw [List.map_cons, sameShapeList]
    simp only [Bool.and_eq_true]
    exact ⟨h v (List.mem_cons_self _ _),
      ih (fun x hx => h x (List.mem_cons_of_mem _ hx))⟩

theorem sameShapeFields_map {fields : List (String × Json)}
    (h : ∀ p ∈ fields, sameShape p.2 (keysToCamelCase p.2) = true) :
    sameShapeFields fields
      (fields.map (fun p => (toCamelCase p.1, keysToCamelCase p.2))) = true := by
  induction fields with
  | nil => rfl
  | cons q rest ih =>
    obtain ⟨k, v⟩ := q
    rw [List.map_cons, sameShapeFields]
    simp only [Bool.and_eq_true]
    exact ⟨h (k, v) (List.mem_cons_self _ _),
      ih (fun p hp => h p (List.mem_cons_of_mem _ hp))⟩

/-- C3 amended: the normalizer's output is structurally isomorphic to its
input — same nesting, same array lengths and order, equal scalars, only
object key strings changed — provided no two keys of any object collide
after camel-casing; with a collision the output object drops a field (see
the counterexample), as C8 records. -/
theorem keysToCamelCase_sameShape_of_noCollisions (v : Json)
    (h : noCollisions v = true) :
    sameShape v (keysToCamelCase v) = true := by
  induction v using Json.strongInd with
  | hnull => rfl
  | hbool b => simp [keysToCamelCase, sameShape]
  | hnum n => simp [keysToCamelCase, sameShape]
  | hstr s => simp [keysToCamelCase, sameShape]
  | harr elements hmem =>
    rw [keysToCamelCase, keysToCamelCaseList_eq_map, sameShape]
    have hx := noCollisionsList_mem (by simpa [noCollisions] using h)
    exact sameShapeList_map (fun x hx2 => hmem x hx2 (hx x hx2))
  | hobj fields hmem =>
    rw [keysToCamelCase] at *
    rw [noCollisions] at h
    simp only [Bool.and_eq_true, decide_eq_true_eq] at h
    rw [keysToCamelCaseFields_eq_append fields [] (by simpa using h.1),
      List.nil_append, sameShape]
    have hf := noCollisionsFields_mem h.2
    exact sameShapeFields_map (fun p hp => hmem p hp (hf p hp))

/-- C3 counterexample: with the colliding keys `"a_b"` and `"a-b"` (both
camel-cased to `"aB"`), the output object has one field where the input
has two, and the surviving value is the later one — the output is not
structurally isomorphic to the input. -/
theorem keysToCamelCase_not_shape_preserving :
    sameShape (Json.obj [("a_b", Json.arr [Json.null]), ("a-b", Json.bool true)])
      (keysToCamelCase
        (Json.obj [("a_b", Json.arr [Json.null]), ("a-b", Json.bool true)])) =
      false := by
  rfl

/-- Witness for C3: a nested collision-free value on which the amended
structure-preservation theorem applies. -/
theorem keysToCamelCase_sameShape_witness :
    noCollisions (Json.obj [("status", Json.str "SENT"),
      ("error_detail", Json.arr [Json.obj [("from_number", Json.num 7)]])]) = true ∧
    sameShape (Json.obj [("status", Json.str "SENT"),
      ("error_detail", Json.arr [Json.obj [("from_number", Json.num 7)]])])
      (keysToCamelCase (Json.obj [("status", Json.str "SENT"),
        ("error_detail", Json.arr [Json.obj [("from_number", Json.num 7)]])])) = true :=
  ⟨by decide, keysToCamelCase_sameShape_of_noCollisions _ (by decide)⟩

/-- C8: when distinct keys of a plain object collide after camel-casing,
the output binds each camelCased key to the normalized value of the last
colliding input key in iteration order (JavaScript assignment overwrites),
and the output object has strictly fewer fields than the input. -/
theorem keysToCamelCase_collision_last_write_wins
    (fields : List (String × Json))
    (_hkeys : (fields.map Prod.fst).Nodup)
    (hcoll : ¬ (fields.map (fun p => toCamelCase p.1)).Nodup) :
    ∃ gs, keysToCamelCase (Json.obj fields) = Json.obj gs ∧
      gs.length < fields.length ∧
      ∀ key, lookupKey gs key =
        (lastMatch fields key).map (fun q => keysToCamelCase q.2) := by
  refine ⟨keysToCamelCaseFields fields [], rfl,
    length_keysToCamelCaseFields_lt fields hcoll, ?_⟩
  intro key
  rw [lookupKey_keysToCamelCaseFields]
  cases lastMatch fields key <;> rfl

/-- Witness for C8: the object `{"a-b": 1, "a_b": 2}` has distinct keys
both camel-casing to `"aB"`; the theorem applies and in particular forces
the single surviving field to hold the value 2. -/
theorem keysToCamelCase_collision_witness :
    ((([("a-b", Json.num 1), ("a_b", Json.num 2)] : List (String × Json)).map
       Prod.fst).Nodup) ∧
    (¬ (([("a-b", Json.num 1), ("a_b", Json.num 2)] : List (String × Json)).map
       (fun p => toCamelCase p.1)).Nodup) ∧
    (∃ gs, keysToCamelCase
        (Json.obj [("a-b", Json.num 1), ("a_b", Json.num 2)]) = Json.obj gs ∧
      gs.length < 2 ∧
      ∀ key, lookupKey gs key =
        (lastMatch [("a-b", Json.num 1), ("a_b", Json.num 2)] key).map
          (fun q => keysToCamelCase q.2)) :=
  ⟨by decide, by decide,
    keysToCamelCase_collision_last_write_wins _ (by decide) (by decide)⟩

theorem depthList_mem_le {elements : List Json} {x : Json} (h : x ∈ elements) :
    depth x ≤ depthList elements := by
  induction elements with
  | nil => simp at h
  | cons v rest ih =>
    rw [depthList]
    rcases List.mem_cons.mp h with he | hm
    · subst he; exact Nat.le_max_left _ _
    · exact Nat.le_trans (ih hm) (Nat.le_max_right _ _)

theorem depthFields_mem_le {fields : List (String × Json)} {p : String × Json}
    (h : p ∈ fields) : depth p.2 ≤ depthFields fields := by
  induction fields with
  | nil => simp at h
  | cons q rest ih =>
    obtain ⟨k, v⟩ := q
    rw [depthFields]
    rcases List.mem_cons.mp h with he | hm
    · subst he; exact Nat.le_max_left _ _
    · exact Nat.le_trans (ih hm) (Nat.le_max_right _ _)

theorem keysToCamelCaseFuelList_eq {elements : List Json} {m : Nat}
    (hmem : ∀ x ∈ elements, ∀ n, depth x < n →
      keysToCamelCaseFuel n x = some (keysToCamelCase x))
    (hd : depthList elements < m) :
    keysToCamelCaseFuelList m elements = some (keysToCamelCaseList elements) := by
  induction elements with
  | nil => cases m <;> rfl
  | cons v rest ih =>
    rw [keysToCamelCaseFuelList,
      hmem v (List.mem_cons_self _ _) m
        (Nat.lt_of_le_of_lt (depthList_mem_le (List.mem_cons_self _ _)) hd),
      ih (fun x hx => hmem x (List.mem_cons_of_mem _ hx))
        (Nat.lt_of_le_of_lt (by rw [depthList]; exact Nat.le_max_right _ _) hd),
      keysToCamelCaseList]

theorem keysToCamelCaseFuelFields_eq {fields : List (String × Json)} {m : Nat}
    (hmem : ∀ p ∈ fields, ∀ n, depth p.2 < n →
      keysToCamelCaseFuel n p.2 = some (keysToCamelCase p.2))
    (hd : depthFields fields < m) :
    ∀ acc, keysToCamelCaseFuelFields m fields acc =
      some (keysToCamelCaseFields fields acc) := by
  induction fields with
  | nil => intro acc; cases m <;> rfl
  | cons q rest ih =>
    obtain ⟨k, v⟩ := q
    intro acc
    rw [keysToCamelCaseFuelFields,
      hmem (k, v) (List.mem_cons_self _ _) m
        (Nat.lt_of_le_of_lt (depthFields_mem_le (List.mem_cons_self _ _)) hd)]
    show keysToCamelCaseFuelFields m rest (setKey acc (toCamelCase k) (keysToCamelCase v)) =
      some (keysToCamelCaseFields ((k, v) :: rest) acc)
    rw [ih (fun p hp => hmem p (List.mem_cons_of_mem _ hp))
        (Nat.lt_of_le_of_lt (by rw [depthFields]; exact Nat.le_max_right _ _) hd),
      keysToCamelCaseFields]

/-- C7: the normalizer is total and recurses to every depth — whenever the
fuel bound exceeds the input's nesting depth, the depth-limited walk
completes (returns `some`) and agrees with the unbounded function, for all
inputs and all depths; the source's recursion has no depth limit and never
fails. -/
theorem keysToCamelCase_total_at_every_depth (v : Json) (n : Nat)
    (h : depth v < n) :
    keysToCamelCaseFuel n v = some (keysToCamelCase v) := by
  induction v using Json.strongInd generalizing n with
  | hnull => cases n with
    | zero => omega
    | succ m => rfl
  | hbool b => cases n with
    | zero => omega
    | succ m => rfl
  | hnum m2 => cases n with
    | zero => omega
    | succ m => rfl
  | hstr s => cases n with
    | zero => omega
    | succ m => rfl
  | harr elements hmem => cases n with
    | zero => omega
    | succ m =>
      rw [keysToCamelCaseFuel, keysToCamelCaseFuelList_eq hmem
        (by rw [depth] at h; omega), keysToCamelCase]
      rfl
  | hobj fields hmem => cases n with
    | zero => omega
    | succ m =>
      rw [keysToCamelCaseFuel, keysToCamelCaseFuelFields_eq hmem
        (by rw [depth] at h; omega) [], keysToCamelCase]
      rfl

/-- Witness for C7: a three-level value is fully normalized once the fuel
exceeds its depth. -/
theorem keysToCamelCase_total_witness :
    depth (Json.obj [("a_b", Json.arr [Json.obj [("c_d", Json.null)]])]) < 4 ∧
    keysToCamelCaseFuel 4
        (Json.obj [("a_b", Json.arr [Json.obj [("c_d", Json.null)]])]) =
      some (keysToCamelCase
        (Json.obj [("a_b", Json.arr [Json.obj [("c_d", Json.null)]])])) :=
  ⟨by decide, keysToCamelCase_total_at_every_depth _ 4 (by decide)⟩

/-- C6 counterexample: the payload `false` is provided, and its JSON
serialization exists (`"false"`), but the request is built with no body —
`payload ? JSON.stringify(payload) : null` tests truthiness, not
presence. -/
theorem buildRequest_falsy_payload_counterexample :
    (buildRequest "pk" "sk" "post" "/api/send-message"
        (some (Json.bool false))).body ≠
      (some (Json.bool false)).map serializeJson := by
  simp [buildRequest, truthy, serializeJson]

/-- C6 amended: the outbound request uses the fixed base origin
concatenated with the path verbatim, the uppercased verb, the two
credential headers plus the JSON content type, and a body equal to the
JSON serialization of the payload when the payload is provided and truthy;
when the payload is absent — or provided but falsy (null, false, 0, or the
empty string), which the claim did not anticipate — no body is sent. -/
theorem buildRequest_spec (publicKey secretKey method pathname : String)
    (payload : Option Json) :
    (buildRequest publicKey secretKey method pathname payload).url =
      sendblueBaseUrl ++ pathname ∧
    (buildRequest publicKey secretKey method pathname payload).method =
      method.toUpper ∧
    (buildRequest publicKey secretKey method pathname payload).headers =
      [("sb-api-key-id", publicKey), ("sb-api-secret-key", secretKey),
       ("Content-Type", "application/json")] ∧
    (∀ p, payload = some p → truthy p = true →
      (buildRequest publicKey secretKey method pathname payload).body =
        some (serializeJson p)) ∧
    (∀ p, payload = some p → truthy p = false →
      (buildRequest publicKey secretKey method pathname payload).body = none) ∧
    (payload = none →
      (buildRequest publicKey secretKey method pathname payload).body = none) := by
  refine ⟨rfl, rfl, rfl, ?_, ?_, ?_⟩
  · intro p hp ht
    subst hp
    simp [buildRequest, ht]
  · intro p hp ht
    subst hp
    simp [buildRequest, ht]
  · intro hp
    subst hp
    rfl

/-- Witness for C6 (amended): a truthy payload is serialized into the
body. -/
theorem buildRequest_spec_witness :
    some (Json.num 5) = some (Json.num 5) ∧ truthy (Json.num 5) = true ∧
    (buildRequest "pk" "sk" "post" "/x" (some (Json.num 5))).body =
      some (serializeJson (Json.num 5)) :=
  ⟨rfl, by decide,
    (buildRequest_spec "pk" "sk" "post" "/x" (some (Json.num 5))).2.2.2.1
      (Json.num 5) rfl (by decide)⟩

/-- C9: the response body is parsed and normalized before the status is
checked, so a body that is not valid JSON makes the call reject with the
body-parse failure — whatever the status — and the structured
API_REQUEST_FAILURE error is never constructed. -/
theorem api_parse_failure_spec
    (publicKey secretKey method pathname : String) (payload : Option Json)
    (transport : Request → HttpResponse)
    (hbody : (transport (buildRequest publicKey secretKey method pathname
      payload)).jsonBody = none) :
    api publicKey secretKey method pathname payload transport =
      ApiResult.parseFailure ∧
    (api publicKey secretKey method pathname payload transport).isApiFailure =
      false := by
  have : api publicKey secretKey method pathname payload transport =
      ApiResult.parseFailure := by
    simp only [api]
    rw [hbody]
  exact ⟨this, by rw [this]; rfl⟩

/-- Witness for C9: a 500 response whose body fails to parse rejects with
the parse failure, not the structured error. -/
theorem api_parse_failure_witness :
    ((fun (_ : Request) => ({ status := 500, jsonBody := none } : HttpResponse))
        (buildRequest "pk" "sk" "get" "/api/message/1" none)).jsonBody = none ∧
    api "pk" "sk" "get" "/api/message/1" none
        (fun _ => { status := 500, jsonBody := none }) = ApiResult.parseFailure ∧
    (api "pk" "sk" "get" "/api/message/1" none
        (fun _ => { status := 500, jsonBody := none })).isApiFailure = false :=
  ⟨rfl,
    (api_parse_failure_spec "pk" "sk" "get" "/api/message/1" none
      (fun _ => { status := 500, jsonBody := none }) rfl).1,
    (api_parse_failure_spec "pk" "sk" "get" "/api/message/1" none
      (fun _ => { status := 500, jsonBody := none }) rfl).2⟩

/-- C5 counterexample: a 400 response whose body is the valid JSON value
`null` is a non-success response on which the structured error is not
raised — evaluating the cause object literal reads `.message` off the null
normalized body and throws a TypeError before `new SendblueError` runs —
refuting the claimed "if and only if". -/
theorem api_error_iff_counterexample :
    responseOk 400 = false ∧
    (api "pk" "sk" "post" "/api/send-message" none
        (fun _ => { status := 400, jsonBody := some Json.null })).isApiFailure =
      false := by
  constructor
  · rfl
  · rfl

/-- C5 amended: for a response whose body parses as JSON, the call rejects
with the structured error iff the status is not a success status and the
normalized body is not JSON null (on a null body the `.message` read in
the cause literal throws a TypeError first, a corner the claim did not
anticipate); every raised error is named API_REQUEST_FAILURE, its message
references the failing path, and its cause carries the JSON-serialized
outbound payload, the numeric status code, and the server's `message`
field from the normalized body; on a success status no error object is
created and the normalized body is returned. -/
theorem api_structured_error_spec
    (publicKey secretKey method pathname : String) (payload : Option Json)
    (transport : Request → HttpResponse) (b : Json)
    (hbody : (transport (buildRequest publicKey secretKey method pathname
      payload)).jsonBody = some b) :
    ((∃ e, api publicKey secretKey method pathname payload transport =
        ApiResult.apiFailure e) ↔
      (responseOk (transport (buildRequest publicKey secretKey method pathname
          payload)).status = false ∧ keysToCamelCase b ≠ Json.null)) ∧
    (∀ e, api publicKey secretKey method pathname payload transport =
        ApiResult.apiFailure e →
      e.name = "API_REQUEST_FAILURE" ∧
      (∃ pre post, e.message = pre ++ pathname ++ post) ∧
      e.cause.request = payload.map serializeJson ∧
      e.cause.code = (transport (buildRequest publicKey secretKey method
        pathname payload)).status ∧
      e.cause.message = getMessageField (keysToCamelCase b)) ∧
    (responseOk (transport (buildRequest publicKey secretKey method
        pathname payload)).status = true →
      api publicKey secretKey method pathname payload transport =
        ApiResult.success (keysToCamelCase b)) := by
  have hapi : api publicKey secretKey method pathname payload transport =
      (if responseOk (transport (buildRequest publicKey secretKey method
          pathname payload)).status then
        ApiResult.success (keysToCamelCase b)
      else match keysToCamelCase b with
        | .null => ApiResult.typeErrorFailure
        | body =>
          ApiResult.apiFailure
            { name := "API_REQUEST_FAILURE"
              message := apiErrorMessage pathname
              cause := { request := payload.map serializeJson
                         code := (transport (buildRequest publicKey secretKey
                           method pathname payload)).status
                         message := getMessageField body } }) := by
    simp only [api]
    rw [hbody]
  by_cases hok : responseOk (transport (buildRequest publicKey secretKey
      method pathname payload)).status
  · rw [hapi, if_pos hok]
    refine ⟨?_, ?_, fun _ => rfl⟩
    · constructor
      · rintro ⟨e, he⟩
        exact absurd he (by simp)
      · rintro ⟨h1, _⟩
        rw [hok] at h1
        exact absurd h1 (by simp)
    · intro e he
      exact absurd he (by simp)
  · rw [hapi, if_neg hok]
    cases hb : keysToCamelCase b with
    | null =>
      refine ⟨?_, ?_, ?_⟩
      · constructor
        · rintro ⟨e, he⟩
          exact absurd he (by simp)
        · rintro ⟨_, h2⟩
          exact absurd rfl h2
      · intro e he
        exact absurd he (by simp)
      · intro h1
        exact absurd h1 hok
    | bool b2 =>
      refine ⟨?_, ?_, ?_⟩
      · constructor
        · intro _
          exact ⟨by simpa using hok, by simp⟩
        · intro _
          exact ⟨_, rfl⟩
      · intro e he
        have he2 := (ApiResult.apiFailure.injEq _ _).mp he.symm
        subst he2
        exact ⟨rfl, ⟨"Error fetching data from Sendblue on route \"", "\"", rfl⟩,
          rfl, rfl, rfl⟩
      · intro h1
        exact absurd h1 hok
    | num n =>
      refine ⟨?_, ?_, ?_⟩
      · exact ⟨fun _ => ⟨by simpa using hok, by simp⟩, fun _ => ⟨_, rfl⟩⟩
      · intro e he
        have he2 := (ApiResult.apiFailure.injEq _ _).mp he.symm
        subst he2
        exact ⟨rfl, ⟨"Error fetching data from Sendblue on route \"", "\"", rfl⟩,
          rfl, rfl, rfl⟩
      · intro h1
        exact absurd h1 hok
    | str s =>
      refine ⟨?_, ?_, ?_⟩
      · exact ⟨fun _ => ⟨by simpa using hok, by simp⟩, fun _ => ⟨_, rfl⟩⟩
      · intro e he
        have he2 := (ApiResult.apiFailure.injEq _ _).mp he.symm
        subst he2
        exact ⟨rfl, ⟨"Error fetching data from Sendblue on route \"", "\"", rfl⟩,
          rfl, rfl, rfl⟩
      · intro h1
        exact absurd h1 hok
    | arr elements =>
      refine ⟨?_, ?_, ?_⟩
      · exact ⟨fun _ => ⟨by simpa using hok, by simp⟩, fun _ => ⟨_, rfl⟩⟩
      · intro e he
        have he2 := (ApiResult.apiFailure.injEq _ _).mp he.symm
        subst he2
        exact ⟨rfl, ⟨"Error fetching data from Sendblue on route \"", "\"", rfl⟩,
          rfl, rfl, rfl⟩
      · intro h1
        exact absurd h1 hok
    | obj fields =>
      refine ⟨?_, ?_, ?_⟩
      · exact ⟨fun _ => ⟨by simpa using hok, by simp⟩, fun _ => ⟨_, rfl⟩⟩
      · intro e he
        have he2 := (ApiResult.apiFailure.injEq _ _).mp he.symm
        subst he2
        exact ⟨rfl, ⟨"Error fetching data from Sendblue on route \"", "\"", rfl⟩,
          rfl, rfl, rfl⟩
      · intro h1
        exact absurd h1 hok

/-- Witness for C5 (amended): a 400 response with body
`\x7b"message": "bad number"\x7d` produces the structured error whose cause
holds status 400 and the server message, and whose message references the
failing path. -/
theorem api_structured_error_spec_witness :
    ((fun (_ : Request) => ({ status := 400, jsonBody := some (Json.obj [("message", Json.str "bad number")]) } : HttpResponse))
      (buildRequest "pk" "sk" "post" "/api/send-message"
        (some (Json.obj [("number", Json.str "+1")])))).jsonBody =
      some (Json.obj [("message", Json.str "bad number")]) ∧
    (api "pk" "sk" "post" "/api/send-message"
        (some (Json.obj [("number", Json.str "+1")]))
        (fun _ => { status := 400, jsonBody := some (Json.obj [("message", Json.str "bad number")]) })) =
      ApiResult.apiFailure
        ⟨"API_REQUEST_FAILURE", apiErrorMessage "/api/send-message",
          ⟨some (serializeJson (Json.obj [("number", Json.str "+1")])), 400,
            some (Json.str "bad number")⟩⟩ ∧
    (⟨"API_REQUEST_FAILURE", apiErrorMessage "/api/send-message",
        ⟨some (serializeJson (Json.obj [("number", Json.str "+1")])), 400,
          some (Json.str "bad number")⟩⟩ : SendblueError).cause.code = 400 ∧
    (⟨"API_REQUEST_FAILURE", apiErrorMessage "/api/send-message",
        ⟨some (serializeJson (Json.obj [("number", Json.str "+1")])), 400,
          some (Json.str "bad number")⟩⟩ :
        SendblueError).cause.message = some (Json.str "bad number") := by
  refine ⟨rfl, rfl, ?_, ?_⟩
  · exact ((api_structured_error_spec "pk" "sk" "post" "/api/send-message"
      (some (Json.obj [("number", Json.str "+1")]))
      (fun _ => { status := 400, jsonBody := some (Json.obj [("message", Json.str "bad number")]) })
      (Json.obj [("message", Json.str "bad number")]) rfl).2.1 _ rfl).2.2.2.1
  · exact ((api_structured_error_spec "pk" "sk" "post" "/api/send-message"
      (some (Json.obj [("number", Json.str "+1")]))
      (fun _ => { status := 400, jsonBody := some (Json.obj [("message", Json.str "bad number")]) })
      (Json.obj [("message", Json.str "bad number")]) rfl).2.1 _ rfl).2.2.2.2
